import Mathlib

/-!
Shallow embedding of the BB84 simulation core
(`src/bb84/bb84_core.py`, `src/bb84/eve_attack.py`, `src/bb84/experiments.py`,
`src/bb84/experiments_runner.py`).

Randomness: the Python code draws from the process-wide numpy generator via
`np.random.random()` (uniform float in [0,1)) and `np.random.randint(0, 2)`
(uniform bit).  We model the generator as an explicit state `Rng` holding two
streams: `floats` for the `random()` draws (rationals, assumed in [0,1) where a
claim needs it) and `ints` for the `randint(0,2)` draws (naturals, assumed in
{0,1} where a claim needs it).  Every function that draws randomness takes and
returns the `Rng`, consuming stream elements in exactly the order the Python
code draws them.  No claim depends on the interleaving between float draws and
int draws, so splitting the single numpy stream into two typed streams is
faithful.

`np.random.randint(0, 2, n)` with `n < 0` raises `ValueError` before drawing;
functions whose Python counterpart can take a negative `num_qubits` therefore
take an `Int` and return `Option` (`none` = the exception propagates).
-/

/-- A classical bit (the Python code represents bits and bases as ints 0/1). -/
abbrev Bit := Nat

/-- The state of the shared random generator: the not-yet-consumed draws. -/
structure Rng where
  floats : List ℚ
  ints : List Nat
deriving DecidableEq, Repr

/-- One `np.random.randint(0, 2)` draw. -/
def randBit (r : Rng) : Bit × Rng :=
  (r.ints.headI, ⟨r.floats, r.ints.tail⟩)

/-- One `np.random.random()` draw (uniform float in [0,1)). -/
def randFloat (r : Rng) : ℚ × Rng :=
  (r.floats.headI, ⟨r.floats.tail, r.ints⟩)

/-- `np.random.randint(0, 2, n)`: an array of `n` uniform bits. -/
def randBits : Nat → Rng → List Bit × Rng
  | 0, r => ([], r)
  | n + 1, r =>
    let (b, r1) := randBit r
    let (bs, r2) := randBits n r1
    (b :: bs, r2)

/-- `encode_qubits` (bb84_core.py): `np.column_stack((bits, bases))`,
the per-index (bit, basis) pairs. -/
def encode_qubits (bits bases : List Bit) : List (Bit × Bit) :=
  bits.zip bases

/-- `measure_qubits` (bb84_core.py): per index, if `alice_bases[i] == bob_bases[i]`
Bob gets `qubits[i][0]` (Alice's bit) with certainty and no randomness is drawn;
otherwise Bob gets a fresh `np.random.randint(0, 2)` draw.
The Python loop indexes `alice_bases[i]` / `bob_bases[i]` for `i` up to
`len(qubits)`; the call sites always pass index-aligned arrays, so the
length-mismatch fallthrough (Python would raise `IndexError`) is unreachable. -/
def measure_qubits : List (Bit × Bit) → List Bit → List Bit → Rng → List Bit × Rng
  | [], _, _, r => ([], r)
  | q :: qs, a :: as_, b :: bs, r =>
    if a = b then
      let (rest, r1) := measure_qubits qs as_ bs r
      (q.1 :: rest, r1)
    else
      let (d, r1) := randBit r
      let (rest, r2) := measure_qubits qs as_ bs r1
      (d :: rest, r2)
  | _ :: _, _, _, r => ([], r)

/-- `eve_intercept_resend` (eve_attack.py): per index, draw a uniform float;
if it is `< eve_probability`, count an interception, draw Eve's basis, measure
(deterministic on basis match, a fresh bit draw on mismatch), and replace the
recorded bit and basis at that index with Eve's; otherwise pass the original
bit (from the qubit pair) and basis (from the `alice_bases` argument) through
unchanged.  Returns (modified qubits, modified bases, interception count).
The length-mismatch fallthrough is unreachable at the call sites. -/
def eve_intercept_resend :
    List (Bit × Bit) → List Bit → ℚ → Rng → List (Bit × Bit) × List Bit × Nat × Rng
  | [], _, _, r => ([], [], 0, r)
  | q :: qs, a :: as_, p, r =>
    let (f, r1) := randFloat r
    if f < p then
      let (eb, r2) := randBit r1
      let (ebit, r3) := if eb = a then (q.1, r2) else randBit r2
      let (qs', as', c, r4) := eve_intercept_resend qs as_ p r3
      ((ebit, eb) :: qs', eb :: as', c + 1, r4)
    else
      let (qs', as', c, r4) := eve_intercept_resend qs as_ p r1
      ((q.1, a) :: qs', a :: as', c, r4)
  | _ :: _, [], _, r => ([], [], 0, r)

/-- `alice_bases == bob_bases`: the element-wise boolean mask. -/
def matching_bases (as_ bs : List Bit) : List Bool :=
  List.zipWith (fun a b => a == b) as_ bs

/-- Boolean-mask indexing `xs[mask]`: keep the entries where the mask is true. -/
def sift : List Bool → List Bit → List Bit
  | m :: ms, x :: xs => if m then x :: sift ms xs else sift ms xs
  | _, _ => []

/-- `np.sum(alice_sifted_key != bob_sifted_key)`: the number of positions where
the two (index-aligned) keys disagree. -/
def count_errors (xs ys : List Bit) : Nat :=
  (List.zipWith (fun x y => x != y) xs ys).count true

/-- `errors / len(alice_sifted_key)` with the empty-key convention `qber = 0.0`. -/
def qber_of (ak bk : List Bit) : ℚ :=
  if 0 < ak.length then (count_errors ak bk : ℚ) / (ak.length : ℚ) else 0

/-- The dictionary returned by `bb84_protocol`. -/
structure ProtocolResult where
  qber : ℚ
  alice_key : List Bit
  bob_key : List Bit
  matching_bases_count : Nat
  total_qubits : Nat
deriving DecidableEq, Repr

/-- `bb84_protocol` (bb84_core.py): generate any bit/basis sequences not
pre-supplied, encode, let Bob measure, reconcile bases, sift, compute QBER. -/
def bb84_protocol (num_qubits : Nat) (alice_bits0 alice_bases0 bob_bases0 : Option (List Bit))
    (r : Rng) : ProtocolResult × Rng :=
  let (alice_bits, r1) :=
    match alice_bits0 with
    | some l => (l, r)
    | none => randBits num_qubits r
  let (alice_bases, r2) :=
    match alice_bases0 with
    | some l => (l, r1)
    | none => randBits num_qubits r1
  let alice_qubits := encode_qubits alice_bits alice_bases
  let (bob_bases, r3) :=
    match bob_bases0 with
    | some l => (l, r2)
    | none => randBits num_qubits r2
  let (bob_bits, r4) := measure_qubits alice_qubits alice_bases bob_bases r3
  let mask := matching_bases alice_bases bob_bases
  let ak := sift mask alice_bits
  let bk := sift mask bob_bits
  ({ qber := qber_of ak bk
     alice_key := ak
     bob_key := bk
     matching_bases_count := mask.count true
     total_qubits := num_qubits }, r4)

/-- The dictionary returned by `run_bb84` / `run_bb84_with_eve` /
`run_experiment`.  `eve_interceptions` is `none` when the key is absent
(the no-Eve runs do not set it). -/
structure ExperimentResult where
  qber : ℚ
  alice_key : List Bit
  bob_key : List Bit
  matching_bases_count : Nat
  total_qubits : Nat
  eve_present : Bool
  eve_probability : ℚ
  eve_interceptions : Option Nat
deriving DecidableEq, Repr

/-- `run_bb84` (experiments.py) on a non-negative qubit count:
`bb84_protocol` with all sequences freshly generated, plus the Eve metadata. -/
def run_bb84_core (n : Nat) (r : Rng) : ExperimentResult × Rng :=
  let (p, r1) := bb84_protocol n none none none r
  ({ qber := p.qber
     alice_key := p.alice_key
     bob_key := p.bob_key
     matching_bases_count := p.matching_bases_count
     total_qubits := p.total_qubits
     eve_present := false
     eve_probability := 0
     eve_interceptions := none }, r1)

/-- `run_bb84_with_eve` (experiments.py) on a non-negative qubit count:
Alice generates bits and bases, Eve intercepts, Bob draws bases and measures
the (possibly modified) qubits against the (possibly modified) bases, and
reconciliation compares Alice's ORIGINAL bases with Bob's. -/
def run_bb84_with_eve_core (n : Nat) (p : ℚ) (r : Rng) : ExperimentResult × Rng :=
  let (alice_bits, r1) := randBits n r
  let (alice_bases, r2) := randBits n r1
  let alice_qubits := encode_qubits alice_bits alice_bases
  let (mq, mb, c, r3) := eve_intercept_resend alice_qubits alice_bases p r2
  let (bob_bases, r4) := randBits n r3
  let (bob_bits, r5) := measure_qubits mq mb bob_bases r4
  let mask := matching_bases alice_bases bob_bases
  let ak := sift mask alice_bits
  let bk := sift mask bob_bits
  ({ qber := qber_of ak bk
     alice_key := ak
     bob_key := bk
     matching_bases_count := mask.count true
     total_qubits := n
     eve_present := true
     eve_probability := p
     eve_interceptions := some c }, r5)

/-- `run_bb84` on a Python int: `np.random.randint(0, 2, num_qubits)` raises
`ValueError` on a negative size, before any draw. -/
def run_bb84 (n : Int) (r : Rng) : Option (ExperimentResult × Rng) :=
  if n < 0 then none else some (run_bb84_core n.toNat r)

/-- `run_bb84_with_eve` on a Python int (negative size raises as above). -/
def run_bb84_with_eve (n : Int) (p : ℚ) (r : Rng) : Option (ExperimentResult × Rng) :=
  if n < 0 then none else some (run_bb84_with_eve_core n.toNat p r)

/-- `run_experiment` (experiments_runner.py): dispatch on `eve_enabled`. -/
def run_experiment (n : Int) (eve_enabled : Bool) (p : ℚ) (r : Rng) :
    Option (ExperimentResult × Rng) :=
  if eve_enabled then run_bb84_with_eve n p r else run_bb84 n r

/-- `np.mean`: the sample mean.  (On an empty list numpy yields NaN with a
warning; the ℚ model yields 0 there.  No claim compares statistics of an
empty sample.) -/
def listMean (xs : List ℚ) : ℚ := xs.sum / (xs.length : ℚ)

/-- The population variance, i.e. the square of `np.std` (numpy's default
`ddof=0`): mean of squared deviations from the mean.  `np.std` itself is the
square root of this; since the square root of a rational is irrational in
general, the model records the variance, which determines the std uniquely. -/
def popVariance (xs : List ℚ) : ℚ :=
  listMean (xs.map (fun x => (x - listMean xs) ^ 2))

/-- One entry of the list returned by `run_eve_sweep`.  `var_qber` /
`var_key_length` are the squares of the Python `std_qber` / `std_key_length`
(see `popVariance`). -/
structure SweepPoint where
  eve_probability : ℚ
  mean_qber : ℚ
  var_qber : ℚ
  mean_key_length : ℚ
  var_key_length : ℚ
deriving DecidableEq, Repr

/-- The inner trial loop of `run_eve_sweep`: run `run_bb84_with_eve` `t` times,
collecting the QBER values and the sifted-key lengths in trial order. -/
def sweep_trials (n : Int) (p : ℚ) : Nat → Rng → Option (List ℚ × List ℚ × Rng)
  | 0, r => some ([], [], r)
  | t + 1, r => do
    let (res, r1) ← run_bb84_with_eve n p r
    let (qs, ks, r2) ← sweep_trials n p t r1
    some (res.qber :: qs, (res.alice_key.length : ℚ) :: ks, r2)

/-- `run_eve_sweep` (experiments_runner.py): for each probability in order,
run `trials` experiments and record mean/std statistics.  `trials` is a Python
int; `range(trials)` on a non-positive value is empty, hence `Int.toNat`. -/
def run_eve_sweep (n : Int) (probs : List ℚ) (trials : Int) (r : Rng) :
    Option (List SweepPoint × Rng) :=
  match probs with
  | [] => some ([], r)
  | p :: ps => do
    let (qs, ks, r1) ← sweep_trials n p trials.toNat r
    let (rest, r2) ← run_eve_sweep n ps trials r1
    some ({ eve_probability := p
            mean_qber := listMean qs
            var_qber := popVariance qs
            mean_key_length := listMean ks
            var_key_length := popVariance ks } :: rest, r2)

/-! ### Structural recursion equations (the `let` pairs are definitionally
projections, thanks to structure eta) -/

theorem measure_qubits_nil (as_ bs : List Bit) (r : Rng) :
    measure_qubits [] as_ bs r = ([], r) := rfl

theorem measure_qubits_cons (q : Bit × Bit) (qs : List (Bit × Bit)) (a b : Bit)
    (as_ bs : List Bit) (r : Rng) :
    measure_qubits (q :: qs) (a :: as_) (b :: bs) r =
      if a = b then
        (q.1 :: (measure_qubits qs as_ bs r).1, (measure_qubits qs as_ bs r).2)
      else
        ((randBit r).1 :: (measure_qubits qs as_ bs (randBit r).2).1,
          (measure_qubits qs as_ bs (randBit r).2).2) := by
  by_cases h : a = b <;> simp [measure_qubits, h]

theorem eve_intercept_resend_nil (as_ : List Bit) (p : ℚ) (r : Rng) :
    eve_intercept_resend [] as_ p r = ([], [], 0, r) := rfl

theorem eve_intercept_resend_cons (q : Bit × Bit) (qs : List (Bit × Bit)) (a : Bit)
    (as_ : List Bit) (p : ℚ) (r : Rng) :
    eve_intercept_resend (q :: qs) (a :: as_) p r =
      if (randFloat r).1 < p then
        let r1 := (randFloat r).2
        let eb := (randBit r1).1
        let r2 := (randBit r1).2
        let ebit := if eb = a then q.1 else (randBit r2).1
        let r3 := if eb = a then r2 else (randBit r2).2
        let rest := eve_intercept_resend qs as_ p r3
        ((ebit, eb) :: rest.1, eb :: rest.2.1, rest.2.2.1 + 1, rest.2.2.2)
      else
        let rest := eve_intercept_resend qs as_ p (randFloat r).2
        ((q.1, a) :: rest.1, a :: rest.2.1, rest.2.2.1, rest.2.2.2) := by
  by_cases h : (randFloat r).1 < p
  · simp only [eve_intercept_resend, h, if_true]
    by_cases he : (randBit (randFloat r).2).1 = a <;> simp [he]
  · simp [eve_intercept_resend, h]

theorem sift_cons (m : Bool) (ms : List Bool) (x : Bit) (xs : List Bit) :
    sift (m :: ms) (x :: xs) = if m then x :: sift ms xs else sift ms xs := rfl

/-! ### Length lemmas -/

theorem randBits_length (n : Nat) (r : Rng) : (randBits n r).1.length = n := by
  induction n generalizing r with
  | zero => rfl
  | succ n ih => simp [randBits, ih]

theorem measure_qubits_length (qs : List (Bit × Bit)) (as_ bs : List Bit) (r : Rng)
    (ha : as_.length = qs.length) (hb : bs.length = qs.length) :
    (measure_qubits qs as_ bs r).1.length = qs.length := by
  induction qs generalizing as_ bs r with
  | nil => simp [measure_qubits]
  | cons q qs ih =>
    cases as_ with
    | nil => simp at ha
    | cons a as_ =>
      cases bs with
      | nil => simp at hb
      | cons b bs =>
        simp only [List.length_cons, Nat.succ.injEq] at ha hb
        rw [measure_qubits_cons]
        by_cases h : a = b <;> simp [h, ih _ _ _ ha hb]

theorem sift_length (m : List Bool) (xs : List Bit) (h : m.length = xs.length) :
    (sift m xs).length = m.count true := by
  induction m generalizing xs with
  | nil => simp [sift]
  | cons b ms ih =>
    cases xs with
    | nil => simp at h
    | cons x xs =>
      simp only [List.length_cons, Nat.succ.injEq] at h
      rw [sift_cons]
      by_cases hb : b <;> simp [hb, List.count_cons, ih xs h]

theorem matching_bases_length (as_ bs : List Bit) :
    (matching_bases as_ bs).length = min as_.length bs.length := by
  simp [matching_bases]

theorem eve_intercept_resend_lengths (qs : List (Bit × Bit)) (as_ : List Bit) (p : ℚ)
    (r : Rng) (ha : as_.length = qs.length) :
    (eve_intercept_resend qs as_ p r).1.length = qs.length ∧
      (eve_intercept_resend qs as_ p r).2.1.length = qs.length := by
  induction qs generalizing as_ r with
  | nil => simp [eve_intercept_resend]
  | cons q qs ih =>
    cases as_ with
    | nil => simp at ha
    | cons a as_ =>
      simp only [List.length_cons, Nat.succ.injEq] at ha
      rw [eve_intercept_resend_cons]
      by_cases h : (randFloat r).1 < p <;>
        simp [h, (ih as_ _ ha).1, (ih as_ _ ha).2]

/-! ### Sifted-measurement correctness: at every position where Alice's and
Bob's bases coincide, Bob's measured bit is Alice's bit, so the two sifted
keys coincide. -/

theorem sift_measure_eq_sift_bits (bits bases bob : List Bit) (r : Rng)
    (h1 : bases.length = bits.length) (h2 : bob.length = bits.length) :
    sift (matching_bases bases bob)
        (measure_qubits (encode_qubits bits bases) bases bob r).1 =
      sift (matching_bases bases bob) bits := by
  induction bits generalizing bases bob r with
  | nil =>
    cases bases with
    | nil => rfl
    | cons a as_ => simp at h1
  | cons x xs ih =>
    cases bases with
    | nil => simp at h1
    | cons a as_ =>
      cases bob with
      | nil => simp at h2
      | cons b bs =>
        simp only [List.length_cons, Nat.succ.injEq] at h1 h2
        simp only [encode_qubits, List.zip_cons_cons, matching_bases,
          List.zipWith_cons_cons]
        rw [measure_qubits_cons]
        by_cases h : a = b
        · simp only [h, if_true, beq_self_eq_true]
          rw [sift_cons, sift_cons]
          simp only [if_true]
          exact congrArg (x :: ·) (ih as_ bs r h1 h2)
        · have hb : (a == b) = false := beq_eq_false_iff_ne.mpr h
          simp only [h, if_false, hb]
          rw [sift_cons, sift_cons]
          simp only [Bool.false_eq_true, if_false]
          exact ih as_ bs _ h1 h2

theorem count_errors_self (xs : List Bit) : count_errors xs xs = 0 := by
  induction xs with
  | nil => rfl
  | cons x xs ih => simp [count_errors, List.count_cons] at ih ⊢; simpa using ih

theorem qber_of_self (xs : List Bit) : qber_of xs xs = 0 := by
  unfold qber_of
  rw [count_errors_self]
  by_cases h : 0 < xs.length <;> simp [h]

/-! ### Run-level helper lemmas -/

theorem run_bb84_core_key_eq (n : Nat) (r : Rng) :
    (run_bb84_core n r).1.bob_key = (run_bb84_core n r).1.alice_key := by
  exact sift_measure_eq_sift_bits ((randBits n r).1)
    ((randBits n (randBits n r).2).1)
    ((randBits n (randBits n (randBits n r).2).2).1)
    ((randBits n (randBits n (randBits n r).2).2).2)
    (by rw [randBits_length, randBits_length])
    (by rw [randBits_length, randBits_length])

theorem run_bb84_core_qber_eq (n : Nat) (r : Rng) :
    (run_bb84_core n r).1.qber =
      qber_of (run_bb84_core n r).1.alice_key (run_bb84_core n r).1.bob_key := rfl

theorem run_bb84_core_qber_zero (n : Nat) (r : Rng) :
    (run_bb84_core n r).1.qber = 0 := by
  rw [run_bb84_core_qber_eq, run_bb84_core_key_eq]
  exact qber_of_self _

/-- C1: measuring a qubit in a basis equal to its encoding basis returns the
encoded bit with certainty and consumes no randomness (the generator state is
returned unchanged); measuring in a differing basis returns exactly the next
value of the uniform bit stream — whatever it is, independent of the encoded
bit — consuming exactly that one draw and no float draw. -/
theorem C1_measure_rule (bit basis mbasis : Bit) (fl : List ℚ) (is : List Nat) :
    (basis = mbasis →
      measure_qubits [(bit, basis)] [basis] [mbasis] ⟨fl, is⟩ = ([bit], ⟨fl, is⟩)) ∧
    (basis ≠ mbasis → ∀ d rest, is = d :: rest →
      measure_qubits [(bit, basis)] [basis] [mbasis] ⟨fl, is⟩ = ([d], ⟨fl, rest⟩)) := by
  constructor
  · intro h
    rw [measure_qubits_cons, if_pos h]
    simp [measure_qubits_nil]
  · intro h d rest his
    subst his
    rw [measure_qubits_cons, if_neg h]
    simp [measure_qubits_nil, randBit]

/-- Witness for C1: a matching-basis measurement returning the encoded bit with
the generator untouched, and a mismatching one returning the next stream bit. -/
theorem C1_measure_rule_witness :
    measure_qubits [(1, 0)] [0] [0] ⟨[], [7]⟩ = ([1], ⟨[], [7]⟩) ∧
      measure_qubits [(1, 0)] [0] [1] ⟨[], [0]⟩ = ([0], ⟨[], []⟩) :=
  ⟨(C1_measure_rule 1 0 0 [] [7]).1 rfl,
    (C1_measure_rule 1 0 1 [] [0]).2 (by decide) 0 [] rfl⟩

/-- C2: every no-Eve run, for every qubit count and every state of the random
stream, yields QBER exactly 0 and a Bob sifted key equal to Alice's. -/
theorem C2_no_eve_qber_zero (n : Nat) (p : ℚ) (r : Rng) :
    ∃ res r', run_experiment (n : Int) false p r = some (res, r') ∧
      res.qber = 0 ∧ res.bob_key = res.alice_key := by
  refine ⟨(run_bb84_core n r).1, (run_bb84_core n r).2, ?_,
    run_bb84_core_qber_zero n r, run_bb84_core_key_eq n r⟩
  simp [run_experiment, run_bb84, Int.not_lt.mpr (Int.natCast_nonneg n)]

/-- C3: the Eve attack processes each index independently, driven by one
uniform float draw per index.  If the draw is not `< eve_probability` the
position passes through with Alice's bit and basis unchanged and no bit draw
consumed; if it is, the interception count goes up by one regardless of the
basis Eve then draws: when Eve's basis equals Alice's she records Alice's bit
deterministically (no extra draw), otherwise she records the next uniform bit,
and in both cases the recorded bit and basis at that index become Eve's. -/
theorem C3_eve_step (bit a : Bit) (qs : List (Bit × Bit)) (as_ : List Bit)
    (p f : ℚ) (fs : List ℚ) (is : List Nat) :
    (¬ f < p →
      eve_intercept_resend ((bit, a) :: qs) (a :: as_) p ⟨f :: fs, is⟩ =
        ((bit, a) :: (eve_intercept_resend qs as_ p ⟨fs, is⟩).1,
          a :: (eve_intercept_resend qs as_ p ⟨fs, is⟩).2.1,
          (eve_intercept_resend qs as_ p ⟨fs, is⟩).2.2.1,
          (eve_intercept_resend qs as_ p ⟨fs, is⟩).2.2.2)) ∧
    (f < p → ∀ e rest, is = e :: rest → e = a →
      eve_intercept_resend ((bit, a) :: qs) (a :: as_) p ⟨f :: fs, is⟩ =
        ((bit, e) :: (eve_intercept_resend qs as_ p ⟨fs, rest⟩).1,
          e :: (eve_intercept_resend qs as_ p ⟨fs, rest⟩).2.1,
          (eve_intercept_resend qs as_ p ⟨fs, rest⟩).2.2.1 + 1,
          (eve_intercept_resend qs as_ p ⟨fs, rest⟩).2.2.2)) ∧
    (f < p → ∀ e d rest, is = e :: d :: rest → e ≠ a →
      eve_intercept_resend ((bit, a) :: qs) (a :: as_) p ⟨f :: fs, is⟩ =
        ((d, e) :: (eve_intercept_resend qs as_ p ⟨fs, rest⟩).1,
          e :: (eve_intercept_resend qs as_ p ⟨fs, rest⟩).2.1,
          (eve_intercept_resend qs as_ p ⟨fs, rest⟩).2.2.1 + 1,
          (eve_intercept_resend qs as_ p ⟨fs, rest⟩).2.2.2)) := by
  refine ⟨?_, ?_, ?_⟩
  · intro h
    rw [eve_intercept_resend_cons]
    simp [randFloat, h]
  · intro h e rest his he
    subst his
    rw [eve_intercept_resend_cons]
    simp [randFloat, randBit, h, he]
  · intro h e d rest his he
    subst his
    rw [eve_intercept_resend_cons]
    simp [randFloat, randBit, h, he]

/-- Witness for C3: with eve_probability 1/2, a draw of 3/4 passes the qubit
through; a draw of 1/4 intercepts, both when Eve's basis coincides with
Alice's (bit kept, still counted) and when it differs (bit re-drawn). -/
theorem C3_eve_step_witness :
    eve_intercept_resend [(1, 0)] [0] (1/2) ⟨[3/4], [5]⟩ = ([(1, 0)], [0], 0, ⟨[], [5]⟩) ∧
      eve_intercept_resend [(1, 0)] [0] (1/2) ⟨[1/4], [0, 5]⟩ =
        ([(1, 0)], [0], 1, ⟨[], [5]⟩) ∧
      eve_intercept_resend [(1, 0)] [0] (1/2) ⟨[1/4], [1, 0]⟩ =
        ([(0, 1)], [1], 1, ⟨[], []⟩) := by
  refine ⟨?_, ?_, ?_⟩
  · rw [(C3_eve_step 1 0 [] [] (1/2) (3/4) [] [5]).1 (by norm_num)]
    simp [eve_intercept_resend_nil]
  · rw [(C3_eve_step 1 0 [] [] (1/2) (1/4) [] [0, 5]).2.1 (by norm_num) 0 [5] rfl rfl]
    simp [eve_intercept_resend_nil]
  · rw [(C3_eve_step 1 0 [] [] (1/2) (1/4) [] [1, 0]).2.2 (by norm_num) 1 0 [] rfl
      (by decide)]
    simp [eve_intercept_resend_nil]

/-- C4: in the Eve-enabled run, the reconciliation mask, the key-retention,
and the matching-bases count are computed from Alice's ORIGINAL generated
bases and Bob's bases; Eve's possibly substituted bases `mb` enter only Bob's
measurement, never the reconciliation. -/
theorem C4_reconciliation_original_bases (n : Nat) (p : ℚ) (r : Rng) :
    ∃ (aliceBits : List Bit) (r1 : Rng) (aliceBases : List Bit) (r2 : Rng)
      (mq : List (Bit × Bit)) (mb : List Bit) (c : Nat) (r3 : Rng)
      (bobBases : List Bit) (r4 : Rng),
      randBits n r = (aliceBits, r1) ∧
      randBits n r1 = (aliceBases, r2) ∧
      eve_intercept_resend (encode_qubits aliceBits aliceBases) aliceBases p r2 =
        (mq, mb, c, r3) ∧
      randBits n r3 = (bobBases, r4) ∧
      (run_bb84_with_eve_core n p r).1.matching_bases_count =
        (matching_bases aliceBases bobBases).count true ∧
      (run_bb84_with_eve_core n p r).1.alice_key =
        sift (matching_bases aliceBases bobBases) aliceBits ∧
      (run_bb84_with_eve_core n p r).1.bob_key =
        sift (matching_bases aliceBases bobBases)
          (measure_qubits mq mb bobBases r4).1 :=
  ⟨_, _, _, _, _, _, _, _, _, _, rfl, rfl, rfl, rfl, rfl, rfl, rfl⟩

/-- The sifted keys' lengths both equal the count of matching bases, which is
at most the number of transmitted qubits. -/
theorem sift_pair_lengths (bits bobBits bases bob : List Bit) (n : Nat)
    (h1 : bits.length = n) (h2 : bases.length = n) (h3 : bob.length = n)
    (h4 : bobBits.length = n) :
    (sift (matching_bases bases bob) bits).length =
        (matching_bases bases bob).count true ∧
      (sift (matching_bases bases bob) bobBits).length =
        (matching_bases bases bob).count true ∧
      (matching_bases bases bob).count true ≤ n := by
  have hm : (matching_bases bases bob).length = n := by
    rw [matching_bases_length, h2, h3, Nat.min_self]
  exact ⟨sift_length _ _ (by rw [hm, h1]), sift_length _ _ (by rw [hm, h4]),
    le_trans (List.count_le_length _ _) (le_of_eq hm)⟩

theorem run_bb84_core_lengths (n : Nat) (r : Rng) :
    (run_bb84_core n r).1.alice_key.length =
        (run_bb84_core n r).1.matching_bases_count ∧
      (run_bb84_core n r).1.bob_key.length =
        (run_bb84_core n r).1.matching_bases_count ∧
      (run_bb84_core n r).1.matching_bases_count ≤
        (run_bb84_core n r).1.total_qubits := by
  have h1 : ((randBits n r).1).length = n := randBits_length n r
  have h2 : ((randBits n (randBits n r).2).1).length = n := randBits_length _ _
  have h3 : ((randBits n (randBits n (randBits n r).2).2).1).length = n :=
    randBits_length _ _
  have henc : (encode_qubits (randBits n r).1
      (randBits n (randBits n r).2).1).length = n := by
    rw [encode_qubits, List.length_zip, h1, h2, Nat.min_self]
  have hmeas : (measure_qubits
      (encode_qubits (randBits n r).1 (randBits n (randBits n r).2).1)
      (randBits n (randBits n r).2).1
      (randBits n (randBits n (randBits n r).2).2).1
      (randBits n (randBits n (randBits n r).2).2).2).1.length = n := by
    rw [measure_qubits_length _ _ _ _ (by rw [h2, henc]) (by rw [h3, henc]), henc]
  exact sift_pair_lengths _ _ _ _ n h1 h2 h3 hmeas

theorem run_bb84_with_eve_core_lengths (n : Nat) (p : ℚ) (r : Rng) :
    (run_bb84_with_eve_core n p r).1.alice_key.length =
        (run_bb84_with_eve_core n p r).1.matching_bases_count ∧
      (run_bb84_with_eve_core n p r).1.bob_key.length =
        (run_bb84_with_eve_core n p r).1.matching_bases_count ∧
      (run_bb84_with_eve_core n p r).1.matching_bases_count ≤
        (run_bb84_with_eve_core n p r).1.total_qubits := by
  have h1 : ((randBits n r).1).length = n := randBits_length n r
  have h2 : ((randBits n (randBits n r).2).1).length = n := randBits_length _ _
  have henc : (encode_qubits (randBits n r).1
      (randBits n (randBits n r).2).1).length = n := by
    rw [encode_qubits, List.length_zip, h1, h2, Nat.min_self]
  have hev := eve_intercept_resend_lengths
    (encode_qubits (randBits n r).1 (randBits n (randBits n r).2).1)
    ((randBits n (randBits n r).2).1) p ((randBits n (randBits n r).2).2)
    (by rw [h2, henc])
  obtain ⟨hmq, hmb⟩ := hev
  rw [henc] at hmq hmb
  have h3 : ((randBits n (eve_intercept_resend
      (encode_qubits (randBits n r).1 (randBits n (randBits n r).2).1)
      ((randBits n (randBits n r).2).1) p
      ((randBits n (randBits n r).2).2)).2.2.2).1).length = n :=
    randBits_length _ _
  have hmeas : (measure_qubits
      (eve_intercept_resend
        (encode_qubits (randBits n r).1 (randBits n (randBits n r).2).1)
        ((randBits n (randBits n r).2).1) p
        ((randBits n (randBits n r).2).2)).1
      (eve_intercept_resend
        (encode_qubits (randBits n r).1 (randBits n (randBits n r).2).1)
        ((randBits n (randBits n r).2).1) p
        ((randBits n (randBits n r).2).2)).2.1
      ((randBits n (eve_intercept_resend
        (encode_qubits (randBits n r).1 (randBits n (randBits n r).2).1)
        ((randBits n (randBits n r).2).1) p
        ((randBits n (randBits n r).2).2)).2.2.2).1)
      ((randBits n (eve_intercept_resend
        (encode_qubits (randBits n r).1 (randBits n (randBits n r).2).1)
        ((randBits n (randBits n r).2).1) p
        ((randBits n (randBits n r).2).2)).2.2.2).2)).1.length = n := by
    rw [measure_qubits_length _ _ _ _ (by rw [hmb, hmq]) (by rw [h3, hmq]), hmq]
  exact sift_pair_lengths _ _ _ _ n h1 h2 h3 hmeas

/-- C5: every run, with or without Eve, satisfies
`len(alice_key) = len(bob_key) = matching_bases_count ≤ total_qubits`,
with `total_qubits` the requested qubit count. -/
theorem C5_key_length_invariant (n : Nat) (e : Bool) (p : ℚ) (r : Rng) :
    ∃ res r', run_experiment (n : Int) e p r = some (res, r') ∧
      res.alice_key.length = res.matching_bases_count ∧
      res.bob_key.length = res.matching_bases_count ∧
      res.matching_bases_count ≤ res.total_qubits ∧
      res.total_qubits = n := by
  cases e with
  | false =>
    obtain ⟨ha, hb, hc⟩ := run_bb84_core_lengths n r
    refine ⟨(run_bb84_core n r).1, (run_bb84_core n r).2, ?_, ha, hb, hc, rfl⟩
    simp [run_experiment, run_bb84, Int.not_lt.mpr (Int.natCast_nonneg n)]
  | true =>
    obtain ⟨ha, hb, hc⟩ := run_bb84_with_eve_core_lengths n p r
    refine ⟨(run_bb84_with_eve_core n p r).1, (run_bb84_with_eve_core n p r).2, ?_,
      ha, hb, hc, rfl⟩
    simp [run_experiment, run_bb84_with_eve, Int.not_lt.mpr (Int.natCast_nonneg n)]

/-! ### Sweep plumbing -/

theorem sweep_trials_spec (n : Int) (hn : 0 ≤ n) (p : ℚ) (t : Nat) :
    ∀ (r : Rng), ∃ qs ks r',
      sweep_trials n p t r = some (qs, ks, r') ∧ qs.length = t ∧ ks.length = t ∧
      ∀ i (hq : i < qs.length) (hk : i < ks.length), ∃ ri resi ri',
        run_bb84_with_eve n p ri = some (resi, ri') ∧
        qs.get ⟨i, hq⟩ = resi.qber ∧
        ks.get ⟨i, hk⟩ = (resi.alice_key.length : ℚ) := by
  induction t with
  | zero =>
    intro r
    exact ⟨[], [], r, rfl, rfl, rfl, by intro i hq _; simp at hq⟩
  | succ t ih =>
    intro r
    have hrun : run_bb84_with_eve n p r =
        some (run_bb84_with_eve_core n.toNat p r) := by
      rw [run_bb84_with_eve, if_neg (Int.not_lt.mpr hn)]
    obtain ⟨qs, ks, r', hst, hql, hkl, hidx⟩ :=
      ih ((run_bb84_with_eve_core n.toNat p r).2)
    refine ⟨(run_bb84_with_eve_core n.toNat p r).1.qber :: qs,
      ((run_bb84_with_eve_core n.toNat p r).1.alice_key.length : ℚ) :: ks, r',
      ?_, by simp [hql], by simp [hkl], ?_⟩
    · simp [sweep_trials, hrun, hst]
    · intro i hq hk
      cases i with
      | zero =>
        exact ⟨r, (run_bb84_with_eve_core n.toNat p r).1,
          (run_bb84_with_eve_core n.toNat p r).2, hrun, rfl, rfl⟩
      | succ i =>
        simp only [List.length_cons, Nat.succ_lt_succ_iff] at hq hk
        obtain ⟨ri, resi, ri', h1, h2, h3⟩ := hidx i hq hk
        exact ⟨ri, resi, ri', h1, by simpa using h2, by simpa using h3⟩

theorem run_eve_sweep_isSome (n : Int) (hn : 0 ≤ n) (probs : List ℚ) (trials : Int) :
    ∀ r, (run_eve_sweep n probs trials r).isSome = true := by
  induction probs with
  | nil => intro r; rfl
  | cons p ps ih =>
    intro r
    obtain ⟨qs, ks, r', hst, -, -, -⟩ := sweep_trials_spec n hn p trials.toNat r
    have h2 := ih r'
    rcases hrs : run_eve_sweep n ps trials r' with _ | ⟨points, r2⟩
    · rw [hrs] at h2; exact absurd h2 (by simp)
    · simp [run_eve_sweep, hst, hrs]

/-- C6 counterexample: `run_experiment` with `eve_probability = 2` (outside
[0,1]) is NOT rejected — it returns a result — and `run_eve_sweep` with
`trials = 0` is NOT rejected either. -/
theorem C6_validation_counterexample :
    (run_experiment 1 true 2 ⟨[1/2], [0, 0, 0, 0, 0]⟩).isSome = true ∧
      (run_eve_sweep 1 [1/2] 0 ⟨[], []⟩).isSome = true ∧ ¬ ((2 : ℚ) ≤ 1) := by
  refine ⟨rfl, rfl, by norm_num⟩

/-- C6 amended: only `num_qubits < 0` fails (numpy raises on a negative array
size, before drawing randomness, yielding no partial result); calls with any
`eve_probability` — including values outside [0,1] — and sweeps with any
`trials` — including `trials < 1` — are not rejected and produce results. -/
theorem C6_no_validation (n : Int) (e : Bool) (p : ℚ) (r : Rng)
    (probs : List ℚ) (trials : Int) :
    (n < 0 → run_experiment n e p r = none) ∧
      (0 ≤ n → (run_experiment n e p r).isSome = true) ∧
      (0 ≤ n → (run_eve_sweep n probs trials r).isSome = true) := by
  refine ⟨?_, ?_, ?_⟩
  · intro hneg
    cases e <;> simp [run_experiment, run_bb84, run_bb84_with_eve, hneg]
  · intro hn
    cases e <;>
      simp [run_experiment, run_bb84, run_bb84_with_eve, Int.not_lt.mpr hn]
  · intro hn
    exact run_eve_sweep_isSome n hn probs trials r

/-- Witness for the amended C6: a negative count fails, a run with
`eve_probability = 3` succeeds, a sweep with `trials = 0` succeeds. -/
theorem C6_no_validation_witness :
    run_experiment (-1) true 3 ⟨[], []⟩ = none ∧
      (run_experiment 0 true 3 ⟨[], []⟩).isSome = true ∧
      (run_eve_sweep 0 [1/2] 0 ⟨[], []⟩).isSome = true :=
  ⟨(C6_no_validation (-1) true 3 ⟨[], []⟩ [1/2] 0).1 (by decide),
    (C6_no_validation 0 true 3 ⟨[], []⟩ [1/2] 0).2.1 (by decide),
    (C6_no_validation 0 true 3 ⟨[], []⟩ [1/2] 0).2.2 (by decide)⟩

/-- C9: a run with `num_qubits = 0` raises no error and returns empty keys,
`matching_bases_count = 0` and `qber = 0`; and in any run whose sifted key
comes out empty, Bob's key is also empty and `qber = 0` by convention. -/
theorem C9_empty_key (e : Bool) (p : ℚ) (r : Rng) (n : Nat) :
    (∃ res r', run_experiment 0 e p r = some (res, r') ∧
      res.alice_key = [] ∧ res.bob_key = [] ∧ res.matching_bases_count = 0 ∧
      res.qber = 0) ∧
    (∀ res r', run_experiment (n : Int) e p r = some (res, r') →
      res.alice_key = [] → res.bob_key = [] ∧ res.qber = 0) := by
  constructor
  · cases e with
    | false => exact ⟨_, _, rfl, rfl, rfl, rfl, rfl⟩
    | true => exact ⟨_, _, rfl, rfl, rfl, rfl, rfl⟩
  · intro res r' heq hak
    cases e with
    | false =>
      have h0 : run_experiment (n : Int) false p r = some (run_bb84_core n r) := by
        simp [run_experiment, run_bb84, Int.not_lt.mpr (Int.natCast_nonneg n)]
      rw [h0] at heq
      have heq' := Option.some.inj heq
      have hres : res = (run_bb84_core n r).1 := by rw [heq']
      subst hres
      obtain ⟨ha, hb, -⟩ := run_bb84_core_lengths n r
      have hcount : (run_bb84_core n r).1.matching_bases_count = 0 := by
        rw [← ha, hak]; rfl
      have hbk : (run_bb84_core n r).1.bob_key = [] :=
        List.length_eq_zero.mp (by rw [hb, hcount])
      refine ⟨hbk, ?_⟩
      have hq : (run_bb84_core n r).1.qber =
          qber_of (run_bb84_core n r).1.alice_key (run_bb84_core n r).1.bob_key := rfl
      rw [hq, hak, hbk]; rfl
    | true =>
      have h0 : run_experiment (n : Int) true p r =
          some (run_bb84_with_eve_core n p r) := by
        simp [run_experiment, run_bb84_with_eve, Int.not_lt.mpr (Int.natCast_nonneg n)]
      rw [h0] at heq
      have heq' := Option.some.inj heq
      have hres : res = (run_bb84_with_eve_core n p r).1 := by rw [heq']
      subst hres
      obtain ⟨ha, hb, -⟩ := run_bb84_with_eve_core_lengths n p r
      have hcount : (run_bb84_with_eve_core n p r).1.matching_bases_count = 0 := by
        rw [← ha, hak]; rfl
      have hbk : (run_bb84_with_eve_core n p r).1.bob_key = [] :=
        List.length_eq_zero.mp (by rw [hb, hcount])
      refine ⟨hbk, ?_⟩
      have hq : (run_bb84_with_eve_core n p r).1.qber =
          qber_of (run_bb84_with_eve_core n p r).1.alice_key
            (run_bb84_with_eve_core n p r).1.bob_key := rfl
      rw [hq, hak, hbk]; rfl

/-- Witness for C9: an Eve-enabled zero-qubit run, with the empty-sifted-key
clause discharged at that same run. -/
theorem C9_empty_key_witness :
    (run_bb84_with_eve_core 0 (1/2) ⟨[], []⟩).1.bob_key = [] ∧
      (run_bb84_with_eve_core 0 (1/2) ⟨[], []⟩).1.qber = 0 :=
  (C9_empty_key true (1/2) ⟨[], []⟩ 0).2
    (run_bb84_with_eve_core 0 (1/2) ⟨[], []⟩).1
    (run_bb84_with_eve_core 0 (1/2) ⟨[], []⟩).2 rfl rfl

/-- C10: with `eve_probability = 0` the attack is the identity
deterministically — every per-index uniform draw `f` satisfies `0 ≤ f < 1`,
and `f < 0` never holds — so the transmission and basis sequences are
returned unchanged and the interception count is 0.  (One float draw is still
consumed per index; no bit draw is consumed.) -/
theorem C10_zero_probability (bits bases : List Bit) (r : Rng)
    (hlen : bases.length = bits.length) (hnn : ∀ f ∈ r.floats, 0 ≤ f) :
    eve_intercept_resend (encode_qubits bits bases) bases 0 r =
      (encode_qubits bits bases, bases, 0, ⟨r.floats.drop bits.length, r.ints⟩) := by
  induction bits generalizing bases r with
  | nil =>
    cases bases with
    | nil => rfl
    | cons a as_ => simp at hlen
  | cons x xs ih =>
    cases bases with
    | nil => simp at hlen
    | cons a as_ =>
      simp only [List.length_cons, Nat.succ.injEq] at hlen
      have htail : ∀ f ∈ r.floats.tail, 0 ≤ f :=
        fun f hf => hnn f (List.tail_subset _ hf)
      have hf : ¬ r.floats.headI < (0 : ℚ) := by
        cases hfl : r.floats with
        | nil => show ¬ (0 : ℚ) < 0; norm_num
        | cons f fs =>
          simpa using hnn f (by rw [hfl]; exact List.mem_cons_self f fs)
      simp only [encode_qubits] at ih ⊢
      simp only [List.zip_cons_cons]
      rw [eve_intercept_resend_cons]
      simp only [randFloat]
      rw [if_neg hf]
      have ih' := ih as_ ⟨r.floats.tail, r.ints⟩ hlen htail
      simp only [encode_qubits] at ih'
      rw [ih']
      have hdrop : r.floats.tail.drop xs.length = r.floats.drop ((x :: xs).length) := by
        rw [List.length_cons, ← List.drop_one, List.drop_drop, Nat.add_comm]
      simp [hdrop]

/-- Witness for C10: a two-qubit transmission with nonnegative float draws
passes through Eve untouched at probability 0. -/
theorem C10_zero_probability_witness :
    eve_intercept_resend (encode_qubits [1, 0] [0, 1]) [0, 1] 0 ⟨[1/2, 0], [3]⟩ =
      (encode_qubits [1, 0] [0, 1], [0, 1], 0, ⟨[], [3]⟩) := by
  have h := C10_zero_probability [1, 0] [0, 1] ⟨[1/2, 0], [3]⟩ (by decide)
    (by intro f hf; fin_cases hf <;> norm_num)
  simpa using h

/-! ### Per-position error analysis for a fully intercepted sifted position -/

/-- All 2³ equally likely values of (Eve's basis draw, Eve's measurement draw,
Bob's measurement draw). -/
def bitTriples : List (Nat × Nat × Nat) :=
  [(0, 0, 0), (0, 0, 1), (0, 1, 0), (0, 1, 1),
   (1, 0, 0), (1, 0, 1), (1, 1, 0), (1, 1, 1)]

/-- One sifted position under full interception: Alice encodes bit `a` in
basis `b`, Eve intercepts (probability 1, Bernoulli draw `f`), and Bob — whose
basis matched Alice's, so the position survives sifting — measures what Eve
resent.  Returns whether Bob's bit differs from Alice's. -/
def eveSiftedError (a b e d1 d2 : Bit) (f : ℚ) : Bool :=
  let ev := eve_intercept_resend [(a, b)] [b] 1 ⟨[f], [e, d1, d2]⟩
  let m := measure_qubits ev.1 ev.2.1 [b] ev.2.2.2
  m.1.headI != a

theorem eveSiftedError_eq (a b e d1 d2 : Bit) (f : ℚ) (hf : f < 1) :
    eveSiftedError a b e d1 d2 f = if e = b then false else (d2 != a) := by
  by_cases he : e = b
  · subst he
    simp [eveSiftedError, eve_intercept_resend_cons, eve_intercept_resend_nil,
      measure_qubits_cons, measure_qubits_nil, randFloat, randBit, hf]
  · simp [eveSiftedError, eve_intercept_resend_cons, eve_intercept_resend_nil,
      measure_qubits_cons, measure_qubits_nil, randFloat, randBit, hf, he]

/-- C7: at a sifted position that Eve intercepts (eve_probability 1, so any
uniform draw `0 ≤ f < 1` triggers interception), exactly 2 of the 8 equally
likely draw combinations make Bob's bit differ from Alice's: the error
probability per sifted position is 2/8 = 1/4 (basis mismatch 1/2 times
conditional error 1/2), for every encoded bit and basis.  The expected QBER
under full interception is therefore 0.25. -/
theorem C7_intercept_error_rate (a b : Bit) (f : ℚ) (ha : a < 2) (hb : b < 2)
    (_hf0 : 0 ≤ f) (hf1 : f < 1) :
    ((bitTriples.filter (fun t => eveSiftedError a b t.1 t.2.1 t.2.2 f)).length = 2 ∧
      bitTriples.length = 8) ∧
      (((bitTriples.filter (fun t => eveSiftedError a b t.1 t.2.1 t.2.2 f)).length : ℚ) /
        (bitTriples.length : ℚ) = 1 / 4) := by
  have key : ∀ e d1 d2 : Bit,
      eveSiftedError a b e d1 d2 f = if e = b then false else (d2 != a) :=
    fun e d1 d2 => eveSiftedError_eq a b e d1 d2 f hf1
  have hcount :
      (bitTriples.filter (fun t => eveSiftedError a b t.1 t.2.1 t.2.2 f)).length = 2 := by
    simp only [key]
    interval_cases a <;> interval_cases b <;> decide
  refine ⟨⟨hcount, rfl⟩, ?_⟩
  rw [hcount, show bitTriples.length = 8 from rfl]
  norm_num

/-- Witness for C7 at bit 0, basis 0, Bernoulli draw 1/2. -/
theorem C7_intercept_error_rate_witness :
    ((bitTriples.filter (fun t => eveSiftedError 0 0 t.1 t.2.1 t.2.2 (1/2))).length = 2 ∧
      bitTriples.length = 8) ∧
      (((bitTriples.filter (fun t => eveSiftedError 0 0 t.1 t.2.1 t.2.2 (1/2))).length : ℚ) /
        (bitTriples.length : ℚ) = 1 / 4) :=
  C7_intercept_error_rate 0 0 (1/2) (by norm_num) (by norm_num) (by norm_num) (by norm_num)

/-- C8: the sweep returns exactly one point per input probability, in input
order; each point records its probability together with the sample mean and
the population variance (the square of numpy's default `np.std`) of the QBER
values and of the sifted-key lengths collected from `trials` successive
Eve-enabled protocol runs at that probability. -/
theorem C8_sweep_statistics (probs : List ℚ) (n : Int) (trials : Int) (r : Rng)
    (hn : 0 ≤ n) :
    ∃ points r', run_eve_sweep n probs trials r = some (points, r') ∧
      points.length = probs.length ∧
      ∀ i (hi : i < points.length) (hp : i < probs.length),
        ∃ qbers keylens,
          qbers.length = trials.toNat ∧ keylens.length = trials.toNat ∧
          points.get ⟨i, hi⟩ = { eve_probability := probs.get ⟨i, hp⟩
                                 mean_qber := listMean qbers
                                 var_qber := popVariance qbers
                                 mean_key_length := listMean keylens
                                 var_key_length := popVariance keylens } ∧
          ∀ j (hq : j < qbers.length) (hk : j < keylens.length),
            ∃ rj resj rj',
              run_bb84_with_eve n (probs.get ⟨i, hp⟩) rj = some (resj, rj') ∧
              qbers.get ⟨j, hq⟩ = resj.qber ∧
              keylens.get ⟨j, hk⟩ = (resj.alice_key.length : ℚ) := by
  induction probs generalizing r with
  | nil => exact ⟨[], r, rfl, rfl, by intro i hi; simp at hi⟩
  | cons p ps ih =>
    obtain ⟨qs, ks, r1, hst, hql, hkl, hidx⟩ := sweep_trials_spec n hn p trials.toNat r
    obtain ⟨points, r', hsw, hlen, hpts⟩ := ih r1
    refine ⟨{ eve_probability := p
              mean_qber := listMean qs
              var_qber := popVariance qs
              mean_key_length := listMean ks
              var_key_length := popVariance ks } :: points, r', ?_, ?_, ?_⟩
    · simp [run_eve_sweep, hst, hsw]
    · simp [hlen]
    · intro i hi hp
      cases i with
      | zero => exact ⟨qs, ks, hql, hkl, rfl, fun j hq hk => hidx j hq hk⟩
      | succ i =>
        simp only [List.length_cons, Nat.succ_lt_succ_iff] at hi hp
        obtain ⟨qbers, keylens, h1, h2, h3, h4⟩ := hpts i hi hp
        refine ⟨qbers, keylens, h1, h2, ?_, ?_⟩
        · simpa using h3
        · intro j hq hk
          simpa using h4 j hq hk

/-- Witness for C8: a one-probability, one-trial sweep at qubit count 0. -/
theorem C8_sweep_statistics_witness :
    ∃ points r', run_eve_sweep 0 [1/2] 1 ⟨[], []⟩ = some (points, r') ∧
      points.length = 1 := by
  obtain ⟨points, r', h1, h2, -⟩ := C8_sweep_statistics [1/2] 0 1 ⟨[], []⟩ (by decide)
  exact ⟨points, r', h1, by simpa using h2⟩
